import Mathlib

/-!
Shallow embedding of the Needle embedding server (`src/embedding/main.py`).

Covered here: the index write path (`update_file_embeddings`), the search
path (`search_embeddings`) and the file-path pattern filters
(`should_exclude_file`, `should_include_file`).

Modelling conventions:
* Python strings are `String` (file paths, ids, pattern strings) or
  `List Char` where character-level slicing/translation matters
  (document text, patterns after `str.split`).
* Python floats (distances, similarity scores, thresholds) are `ℚ`.
* The ChromaDB collection is a `List IndexedDoc`; its capability
  (`add(ids, documents, metadatas)`, `delete(where={filePath: p})`,
  `query`) is the one the spec pins down for the vector store, which is
  an external collaborator of the repository.
* Python's `re` module is modelled by a small regular-expression engine
  (`RE`, `reCompile`, `reSearch`) covering exactly the constructs the
  glob-to-regex conversion in the source can produce: literals, `\`
  escapes, `.`, `*`, groups and alternation, searched anchorlessly and
  case-insensitively (`re.IGNORECASE`); `reCompile = none` models
  `re.error` being raised by `re.compile`.
-/

namespace Needle

/-! ## Python string helpers -/

/-- Python `str.replace(old, new)` for a single-character `old`. -/
def pyreplace (old : Char) (new : List Char) (cs : List Char) : List Char :=
  cs.flatMap (fun c => if c = old then new else [c])

/-- Python `str.split(sep)` for a single-character separator:
`"a,,b".split(",") = ["a", "", "b"]` and `"".split(",") = [""]`. -/
def pysplit (sep : Char) : List Char → List (List Char)
  | [] => [[]]
  | c :: cs =>
    if c = sep then [] :: pysplit sep cs
    else
      match pysplit sep cs with
      | [] => [[c]]
      | p :: ps => (c :: p) :: ps

/-- Python `str.strip()`: drop whitespace from both ends. -/
def pystrip (cs : List Char) : List Char :=
  ((cs.dropWhile Char.isWhitespace).reverse.dropWhile Char.isWhitespace).reverse

/-- Python `l[s:e]` for `0 ≤ s ≤ e`. -/
def pyslice {α : Type} (l : List α) (s e : Nat) : List α :=
  (l.drop s).take (e - s)

/-! ## Regular expressions

Model of the fragment of Python's `re` that the glob conversion in
`should_exclude_file` / `should_include_file` can produce. -/

/-- Regular-expression abstract syntax. -/
inductive RE : Type where
  | emp : RE
  | eps : RE
  | chr : Char → RE
  | any : RE
  | alt : RE → RE → RE
  | cat : RE → RE → RE
  | star : RE → RE
deriving DecidableEq

/-- Does the regular expression accept the empty string? -/
def nullable : RE → Bool
  | .emp => false
  | .eps => true
  | .chr _ => false
  | .any => false
  | .alt r s => nullable r || nullable s
  | .cat r s => nullable r && nullable s
  | .star _ => true

/-- Brzozowski derivative; character comparison is case-insensitive,
modelling `re.IGNORECASE` in the source. -/
def deriv : RE → Char → RE
  | .emp, _ => .emp
  | .eps, _ => .emp
  | .chr c, a => if c.toLower = a.toLower then .eps else .emp
  | .any, _ => .eps
  | .alt r s, a => .alt (deriv r a) (deriv s a)
  | .cat r s, a =>
    if nullable r then .alt (.cat (deriv r a) s) (deriv s a)
    else .cat (deriv r a) s
  | .star r, a => .cat (deriv r a) (.star r)

/-- Whole-string match of a regular expression. -/
def reMatch (r : RE) (cs : List Char) : Bool :=
  nullable (cs.foldl deriv r)

/-- Model of `re.search`: anchorless match, i.e. some substring of the
input matches the pattern. -/
def reSearch (r : RE) (cs : List Char) : Bool :=
  reMatch (RE.cat (RE.star RE.any) (RE.cat r (RE.star RE.any))) cs

mutual

/-- Parse an alternation (`a|b|c`). -/
def parseAlt : Nat → List Char → Option (RE × List Char)
  | 0, _ => none
  | fuel + 1, cs =>
    match parseCat fuel cs with
    | none => none
    | some (r, rest) =>
      match rest with
      | '|' :: rest2 =>
        match parseAlt fuel rest2 with
        | none => none
        | some (s, rest3) => some (RE.alt r s, rest3)
      | _ => some (r, rest)

/-- Parse a concatenation of starred atoms, stopping at `)`, `|` or
the end of the input. -/
def parseCat : Nat → List Char → Option (RE × List Char)
  | 0, _ => none
  | fuel + 1, cs =>
    match cs with
    | [] => some (RE.eps, [])
    | ')' :: _ => some (RE.eps, cs)
    | '|' :: _ => some (RE.eps, cs)
    | _ =>
      match parseAtomStar fuel cs with
      | none => none
      | some (r, rest) =>
        match parseCat fuel rest with
        | none => none
        | some (s, rest2) => some (RE.cat r s, rest2)

/-- Parse an atom with an optional `*`; a doubled `*` is a
"multiple repeat" error, as in Python. -/
def parseAtomStar : Nat → List Char → Option (RE × List Char)
  | 0, _ => none
  | fuel + 1, cs =>
    match parseAtom fuel cs with
    | none => none
    | some (r, rest) =>
      match rest with
      | '*' :: '*' :: _ => none
      | '*' :: rest2 => some (RE.star r, rest2)
      | _ => some (r, rest)

/-- Parse a single atom: a group, `.`, an escaped literal or a plain
literal.  Constructs outside the fragment the glob conversion produces
(`+`, `?`, classes, anchors) are rejected, as is a quantifier with
nothing to repeat or a dangling escape — Python raises `re.error` on
the latter two. -/
def parseAtom : Nat → List Char → Option (RE × List Char)
  | 0, _ => none
  | fuel + 1, cs =>
    match cs with
    | [] => none
    | '(' :: rest =>
      match parseAlt fuel rest with
      | none => none
      | some (r, rest2) =>
        match rest2 with
        | ')' :: rest3 => some (r, rest3)
        | _ => none
    | '.' :: rest => some (RE.any, rest)
    | '\\' :: c :: rest => if c.isAlphanum then none else some (RE.chr c, rest)
    | '\\' :: [] => none
    | '*' :: _ => none
    | '+' :: _ => none
    | '?' :: _ => none
    | '[' :: _ => none
    | ']' :: _ => none
    | '^' :: _ => none
    | '$' :: _ => none
    | c :: rest => some (RE.chr c, rest)

end

/-- Model of `re.compile`: parse the whole pattern; `none` models a
`re.error` exception (e.g. "missing ), unterminated subpattern" for an
unbalanced `(` and "unbalanced parenthesis" for a stray `)`). -/
def reCompile (cs : List Char) : Option RE :=
  match parseAlt (4 * cs.length + 8) cs with
  | some (r, []) => some r
  | _ => none

/-! ## Path-pattern filters (`should_exclude_file`, `should_include_file`) -/

/-- The chained replacements
`pattern.replace('.', '\\.').replace('*', '.*').replace('{', '(').replace('}', ')').replace(',', '|')`
from the source. -/
def globToRegex (p : List Char) : List Char :=
  pyreplace ',' ['|']
    (pyreplace '}' [')']
      (pyreplace '{' ['(']
        (pyreplace '*' ['.', '*']
          (pyreplace '.' ['\\', '.'] p))))

/-- The list comprehension
`[pattern.strip() for pattern in s.split(',') if pattern.strip()]`
shared by both filter functions. -/
def splitPatterns (s : String) : List (List Char) :=
  ((pysplit ',' s.toList).map pystrip).filter (fun p => !p.isEmpty)

/-- Does this (comma-free) pattern's glob-to-regex translation
compile? -/
def compilesGlob (p : List Char) : Bool :=
  (reCompile (globToRegex p)).isSome

/-- Does the path match this single pattern (`false` when the pattern
does not compile)? -/
def globSearch (path : String) (p : List Char) : Bool :=
  match reCompile (globToRegex p) with
  | some r => reSearch r path.toList
  | none => false

/-- Body of the `for pattern in patterns` loop of `should_exclude_file`.
The `try` in the source wraps the whole loop, so the `re.error` raised
by a non-compiling pattern aborts the remaining iterations and the
handler returns `False` for the whole call. -/
def exclLoop (path : String) : List (List Char) → Bool
  | [] => false
  | p :: ps =>
    match reCompile (globToRegex p) with
    | none => false
    | some r => if reSearch r path.toList then true else exclLoop path ps

/-- `should_exclude_file(file_path, exclusion_pattern)` from the
source. -/
def should_exclude_file (file_path : String) (exclusion_pattern : String) : Bool :=
  exclLoop file_path (splitPatterns exclusion_pattern)

/-- Body of the `for pattern in patterns` loop of `should_include_file`;
a compile failure aborts the loop and the handler returns `True` for
the whole call. -/
def inclLoop (path : String) : List (List Char) → Bool
  | [] => false
  | p :: ps =>
    match reCompile (globToRegex p) with
    | none => true
    | some r => if reSearch r path.toList then true else inclLoop path ps

/-- `should_include_file(file_path, inclusion_pattern)` from the
source. -/
def should_include_file (file_path : String) (inclusion_pattern : String) : Bool :=
  if inclusion_pattern = "" then true
  else if splitPatterns inclusion_pattern = [] then true
  else inclLoop file_path (splitPatterns inclusion_pattern)

/-! ## Index data model -/

/-- `BATCH_SIZE = 25` from the source. -/
def BATCH_SIZE : Nat := 25

/-- The metadata dict of an indexed document.  `filePath`, `start_line`
and `end_line` are required by the read path; `fingerprint` and
`context` are read with `.get(…, "")`, i.e. default to the empty
string. -/
structure Metadata where
  filePath : String
  start_line : Int
  end_line : Int
  fingerprint : String
  context : String
deriving DecidableEq

/-- One element of `FileEmbeddingInput.documents`: a dict with a
`document` string and a `metadata` dict. -/
structure DocIn where
  document : List Char
  metadata : Metadata
deriving DecidableEq

/-- A document stored in the ChromaDB collection. -/
structure IndexedDoc where
  id : String
  document : List Char
  metadata : Metadata
deriving DecidableEq

/-- One call against the collection issued by the write path. -/
inductive Op : Type where
  | del : String → Op
  | add : List String → List (List Char) → List Metadata → Op
deriving DecidableEq

/-- Zip the three parallel argument lists of `collection.add`. -/
def zip3 : List String → List (List Char) → List Metadata → List (String × List Char × Metadata)
  | i :: is, d :: ds, m :: ms => (i, d, m) :: zip3 is ds ms
  | _, _, _ => []

/-- Build the stored document from one `(id, document, metadata)`
triple. -/
def mkDoc (t : String × List Char × Metadata) : IndexedDoc :=
  ⟨t.1, t.2.1, t.2.2⟩

/-- Modelled from the spec: the vector-store capability (ChromaDB is an
external collaborator, not part of this repository's source).
`delete(where={filePath: p})` removes exactly the documents whose
metadata `filePath` equals `p` (exact-match mapping); `add` appends the
zipped `(id, document, metadata)` triples. -/
def applyOp (st : List IndexedDoc) : Op → List IndexedDoc
  | .del p => st.filter (fun d => decide (d.metadata.filePath ≠ p))
  | .add ids docs metas => st ++ (zip3 ids docs metas).map mkDoc

/-- `math.ceil(total_docs / BATCH_SIZE)` from the source. -/
def numBatches (totalDocs : Nat) : Nat :=
  (totalDocs + BATCH_SIZE - 1) / BATCH_SIZE

/-- `[{key: doc["metadata"][key] for key in ('filePath',)} for doc in
input.documents]` — the delete filters, one per incoming document
(duplicates included), each selecting on `filePath` alone. -/
def batchPaths (input : List DocIn) : List String :=
  input.map (fun d => d.metadata.filePath)

/-- `[doc["document"][:1000] for doc in input.documents]` — documents
truncated to at most 1000 characters. -/
def truncDocs (input : List DocIn) : List (List Char) :=
  input.map (fun d => d.document.take 1000)

/-- `[doc["metadata"] for doc in input.documents]`. -/
def metadatas (input : List DocIn) : List Metadata :=
  input.map DocIn.metadata

/-- The sequence of collection calls issued by one
`update_file_embeddings(input)` request: one `delete` per incoming
document's `filePath` (in input order), then the `add` calls of the
`for i in range(total_batches)` loop, each adding the slice
`[i*BATCH_SIZE : min((i+1)*BATCH_SIZE, total_docs)]` of the three
parallel lists.  `ids` stands for the list of fresh
`uuid.uuid4().hex` values, one per document. -/
def update_trace (ids : List String) (input : List DocIn) : List Op :=
  (batchPaths input).map Op.del ++
    (List.range (numBatches input.length)).map (fun i =>
      Op.add
        (pyslice ids (i * BATCH_SIZE) (min ((i + 1) * BATCH_SIZE) input.length))
        (pyslice (truncDocs input) (i * BATCH_SIZE) (min ((i + 1) * BATCH_SIZE) input.length))
        (pyslice (metadatas input) (i * BATCH_SIZE) (min ((i + 1) * BATCH_SIZE) input.length)))

/-- `update_file_embeddings(input)` from the source: the collection
state after running the traced calls against the starting state. -/
def update_file_embeddings (st : List IndexedDoc) (ids : List String) (input : List DocIn) :
    List IndexedDoc :=
  (update_trace ids input).foldl applyOp st

/-- The documents inserted by one `update_file_embeddings` call: the
zipped fresh ids, truncated documents and metadatas. -/
def newDocs (ids : List String) (input : List DocIn) : List IndexedDoc :=
  (zip3 ids (truncDocs input) (metadatas input)).map mkDoc

/-! ## Search -/

/-- The fields of `SearchQuery` in the source.  `max_results` is a
natural number (the vector store rejects a non-positive fetch count
`max_results * 2`, so no result list is returned for negative values);
the threshold is a float, modelled as `ℚ`. -/
structure SearchQuery where
  query : String
  max_results : Nat
  similarity_threshold : ℚ
  exclusion_pattern : String
  inclusion_pattern : String
deriving DecidableEq

/-- One `(document, metadata, distance)` triple of the vector store's
nearest-neighbour answer. -/
structure Neighbor where
  document : List Char
  metadata : Metadata
  distance : ℚ
deriving DecidableEq

/-- One element of the `results` list returned by `/search`. -/
structure SearchResult where
  embedding : List ℚ
  code : List Char
  filePath : String
  lineStart : Int
  lineEnd : Int
  fingerprint : String
  context : String
  score : ℚ
deriving DecidableEq

/-- `similarity = 1 - (distance / 2)` from the source. -/
def similarityOf (nb : Neighbor) : ℚ :=
  1 - nb.distance / 2

/-- The result dict appended by the loop body (`embedding` is always
the empty list; `score` is the computed similarity). -/
def toResult (nb : Neighbor) : SearchResult :=
  ⟨[], nb.document, nb.metadata.filePath, nb.metadata.start_line, nb.metadata.end_line,
    nb.metadata.fingerprint, nb.metadata.context, similarityOf nb⟩

/-- One iteration of the filtering loop: threshold check, then the
exclusion filter (when the pattern string is non-empty), then the
inclusion filter (when non-empty), then append. -/
def stepResults (q : SearchQuery) (acc : List SearchResult) (nb : Neighbor) :
    List SearchResult :=
  if q.similarity_threshold ≤ similarityOf nb then
    if q.exclusion_pattern ≠ "" ∧
        should_exclude_file nb.metadata.filePath q.exclusion_pattern = true then acc
    else if q.inclusion_pattern ≠ "" ∧
        should_include_file nb.metadata.filePath q.inclusion_pattern = false then acc
    else acc ++ [toResult nb]
  else acc

/-- The `for doc, metadata, distance in zip(...)` loop with its
early-exit check `if len(filtered_results) >= input.max_results:
break`, which runs on every iteration. -/
def searchLoop (q : SearchQuery) : List Neighbor → List SearchResult → List SearchResult
  | [], acc => acc
  | nb :: rest, acc =>
    let acc2 := stepResults q acc nb
    if q.max_results ≤ acc2.length then acc2 else searchLoop q rest acc2

/-- `search_embeddings(input)` from the source, as a function of the
neighbour list the vector store returned for the overfetched query
(`n_results = max_results * 2`); the final
`filtered_results[:input.max_results]` is the `take`. -/
def search_embeddings (q : SearchQuery) (neighbors : List Neighbor) : List SearchResult :=
  (searchLoop q neighbors []).take q.max_results

/-- Modelled from the spec: the "single atomic bulk insert" that §4.2
step 5 pins as the meaning of the chunked insert loop — the same
per-path deletes followed by one `add` of the full id, truncated
document and metadata lists. -/
def bulk_update_spec (st : List IndexedDoc) (ids : List String) (input : List DocIn) :
    List IndexedDoc :=
  applyOp ((batchPaths input).foldl (fun acc p => applyOp acc (Op.del p)) st)
    (Op.add ids (truncDocs input) (metadatas input))

/-! ## Concrete fixtures used by witness theorems -/

/-- A sample metadata record. -/
def mA : Metadata := ⟨"a.py", 1, 2, "", ""⟩

/-- Another sample metadata record, under a different file path. -/
def mB : Metadata := ⟨"b.py", 3, 4, "fp", "ctx"⟩

/-- A sample search query with no path filters. -/
def qW : SearchQuery := ⟨"def f", 2, 0, "", ""⟩

/-- A sample neighbour list in ascending-distance order. -/
def nbsW : List Neighbor := [⟨['a'], mA, 0⟩, ⟨['b'], mB, 2⟩]

/-- A sample pre-existing collection state. -/
def stW : List IndexedDoc := [⟨"old1", ['x'], mA⟩, ⟨"keep", ['k'], mB⟩]

/-- A sample upsert batch (one document, path `a.py`). -/
def inW : List DocIn := [⟨['y'], mA⟩]

/-! ## Pattern-filter lemmas -/

/-- Unfolding lemma: a non-compiling pattern matches nothing. -/
theorem globSearch_of_none {p : List Char} (hc : reCompile (globToRegex p) = none)
    (path : String) : globSearch path p = false := by
  unfold globSearch
  rw [hc]

/-- Unfolding lemma: a compiling pattern matches via `reSearch`. -/
theorem globSearch_of_some {p : List Char} {r : RE}
    (hc : reCompile (globToRegex p) = some r) (path : String) :
    globSearch path p = reSearch r path.toList := by
  unfold globSearch
  rw [hc]

/-- Unfolding lemma for `compilesGlob` on a compile failure. -/
theorem compilesGlob_of_none {p : List Char} (hc : reCompile (globToRegex p) = none) :
    compilesGlob p = false := by
  unfold compilesGlob
  rw [hc]
  rfl

/-- Unfolding lemma for `compilesGlob` on a compile success. -/
theorem compilesGlob_of_some {p : List Char} {r : RE}
    (hc : reCompile (globToRegex p) = some r) : compilesGlob p = true := by
  unfold compilesGlob
  rw [hc]
  rfl

/-- Unfolding lemma for `exclLoop` on a compile failure. -/
theorem exclLoop_cons_of_none {p : List Char} (hc : reCompile (globToRegex p) = none)
    (path : String) (ps : List (List Char)) : exclLoop path (p :: ps) = false := by
  unfold exclLoop
  rw [hc]

/-- Unfolding lemma for `exclLoop` on a compile success. -/
theorem exclLoop_cons_of_some {p : List Char} {r : RE}
    (hc : reCompile (globToRegex p) = some r) (path : String) (ps : List (List Char)) :
    exclLoop path (p :: ps) =
      (if reSearch r path.toList then true else exclLoop path ps) := by
  simp only [exclLoop, hc]

/-- Unfolding lemma for `inclLoop` on a compile failure. -/
theorem inclLoop_cons_of_none {p : List Char} (hc : reCompile (globToRegex p) = none)
    (path : String) (ps : List (List Char)) : inclLoop path (p :: ps) = true := by
  unfold inclLoop
  rw [hc]

/-- Unfolding lemma for `inclLoop` on a compile success. -/
theorem inclLoop_cons_of_some {p : List Char} {r : RE}
    (hc : reCompile (globToRegex p) = some r) (path : String) (ps : List (List Char)) :
    inclLoop path (p :: ps) =
      (if reSearch r path.toList then true else inclLoop path ps) := by
  simp only [inclLoop, hc]

/-- `should_exclude_file`'s loop returns `true` exactly when the
pattern list decomposes as a compiling (not necessarily matching)
prefix followed by a matching pattern: a pattern that fails to compile
aborts the loop before any later pattern is looked at. -/
theorem exclLoop_eq_true_iff (path : String) (ps : List (List Char)) :
    exclLoop path ps = true ↔
      ∃ pre q post, ps = pre ++ q :: post ∧
        (∀ p ∈ pre, compilesGlob p = true) ∧ globSearch path q = true := by
  induction ps with
  | nil =>
    simp only [exclLoop, Bool.false_eq_true, false_iff]
    rintro ⟨pre, q, post, h, -, -⟩
    rcases pre with _ | ⟨a, pre⟩ <;> simp at h
  | cons p ps ih =>
    cases hc : reCompile (globToRegex p) with
    | none =>
      rw [exclLoop_cons_of_none hc]
      simp only [Bool.false_eq_true, false_iff]
      rintro ⟨pre, q, post, hdec, hpre, hq⟩
      cases pre with
      | nil =>
        simp only [List.nil_append, List.cons.injEq] at hdec
        rw [← hdec.1, globSearch_of_none hc] at hq
        exact Bool.false_ne_true hq
      | cons p0 pre' =>
        simp only [List.cons_append, List.cons.injEq] at hdec
        have h0 : compilesGlob p0 = true := hpre p0 (List.mem_cons_self p0 pre')
        rw [← hdec.1, compilesGlob_of_none hc] at h0
        exact Bool.false_ne_true h0
    | some r =>
      rw [exclLoop_cons_of_some hc]
      cases hs : reSearch r path.toList with
      | true =>
        rw [if_pos rfl]
        refine iff_of_true rfl ⟨[], p, ps, rfl, by simp, ?_⟩
        rw [globSearch_of_some hc, hs]
      | false =>
        rw [if_neg (by simp), ih]
        constructor
        · rintro ⟨pre, q, post, hdec, hpre, hq⟩
          refine ⟨p :: pre, q, post, by rw [hdec, List.cons_append], ?_, hq⟩
          intro x hx
          rcases List.mem_cons.mp hx with hx | hx
          · rw [hx]
            exact compilesGlob_of_some hc
          · exact hpre x hx
        · rintro ⟨pre, q, post, hdec, hpre, hq⟩
          cases pre with
          | nil =>
            simp only [List.nil_append, List.cons.injEq] at hdec
            rw [← hdec.1, globSearch_of_some hc, hs] at hq
            exact absurd hq Bool.false_ne_true
          | cons p0 pre' =>
            simp only [List.cons_append, List.cons.injEq] at hdec
            exact ⟨pre', q, post, hdec.2, fun x hx => hpre x (List.mem_cons_of_mem p0 hx), hq⟩

/-- `should_include_file`'s loop returns `false` exactly when every
pattern compiles and none matches; a compile failure makes it return
`true` on the spot. -/
theorem inclLoop_eq_false_iff (path : String) (ps : List (List Char)) :
    inclLoop path ps = false ↔
      ∀ p ∈ ps, compilesGlob p = true ∧ globSearch path p = false := by
  induction ps with
  | nil => simp [inclLoop]
  | cons p ps ih =>
    cases hc : reCompile (globToRegex p) with
    | none =>
      rw [inclLoop_cons_of_none hc]
      simp only [Bool.true_eq_false, false_iff]
      intro h
      have h0 := (h p (List.mem_cons_self p ps)).1
      rw [compilesGlob_of_none hc] at h0
      exact Bool.false_ne_true h0
    | some r =>
      rw [inclLoop_cons_of_some hc]
      cases hs : reSearch r path.toList with
      | true =>
        rw [if_pos rfl]
        simp only [Bool.true_eq_false, false_iff]
        intro h
        have h0 := (h p (List.mem_cons_self p ps)).2
        rw [globSearch_of_some hc, hs] at h0
        exact Bool.noConfusion h0
      | false =>
        have hp : compilesGlob p = true ∧ globSearch path p = false :=
          ⟨compilesGlob_of_some hc, by rw [globSearch_of_some hc, hs]⟩
        rw [if_neg (by simp), ih, List.forall_mem_cons]
        simp [hp]

/-! ## Claim theorems: path-pattern filters -/

/-- C3: evaluation of the code at the spec's brace-alternation example.
The source splits the pattern list on `,` before translating braces,
so `"*.{py,md}"` becomes the fragments `"*.{py"` and `"md}"`; the
first translates to the invalid regex `.*\.(py`, whose compile error
is swallowed by the call-level handler.  Hence
`should_exclude_file("a.py", "*.{py,md}")` returns `false` — the spec
and the claim say `true` (`matchesAny("a.py", "*.{py,md}") → true`),
and the code's own comment says the conversion handles
`*.{json,md}` — while `should_include_file` returns `true` only via
the error fallback, not via alternation. -/
theorem brace_pattern_behaviour :
    should_exclude_file "a.py" "*.\x7bpy,md\x7d" = false ∧
    should_include_file "a.py" "*.\x7bpy,md\x7d" = true ∧
    splitPatterns "*.\x7bpy,md\x7d" = [['*', '.', '\x7b', 'p', 'y'], ['m', 'd', '\x7d']] ∧
    reCompile (globToRegex ['*', '.', '\x7b', 'p', 'y']) = none := by
  refine ⟨by decide, by decide, by decide, by decide⟩

/-- C4, counterexample: the pattern list `"(, *.py"` contains the
valid pattern `"*.py"`, which on its own matches and excludes
`"a.py"`, yet `should_exclude_file("a.py", "(, *.py")` returns
`false`: the non-compiling pattern `"("` earlier in the list aborts
the whole loop, so the later valid pattern is never evaluated —
refuting "only that pattern is skipped: every other (valid) pattern in
the same list is still evaluated". -/
theorem exclusion_abort_counterexample :
    should_exclude_file "a.py" "(, *.py" = false ∧
    should_exclude_file "a.py" "*.py" = true ∧
    splitPatterns "(, *.py" = [['('], ['*', '.', 'p', 'y']] ∧
    compilesGlob ['('] = false ∧
    globSearch "a.py" ['*', '.', 'p', 'y'] = true := by
  refine ⟨by decide, by decide, by decide, by decide, by decide⟩

/-- C4, amended: a pattern that fails to compile never raises (both
functions are total and return their handler's default), but it aborts
evaluation of every later pattern in the same list:
`should_exclude_file` returns `true` exactly when some pattern in the
split list matches the path and every pattern before it compiles, and
`should_include_file` returns `false` exactly when the list is
non-trivial, every pattern in it compiles and none matches (so a
compile failure anywhere makes it return `true` immediately). -/
theorem pattern_failure_characterisation (path pl : String) :
    (should_exclude_file path pl = true ↔
      ∃ pre q post, splitPatterns pl = pre ++ q :: post ∧
        (∀ p ∈ pre, compilesGlob p = true) ∧ globSearch path q = true) ∧
    (should_include_file path pl = false ↔
      pl ≠ "" ∧ splitPatterns pl ≠ [] ∧
        ∀ p ∈ splitPatterns pl, compilesGlob p = true ∧ globSearch path p = false) := by
  constructor
  · rw [should_exclude_file]
    exact exclLoop_eq_true_iff path (splitPatterns pl)
  · rw [should_include_file]
    by_cases h1 : pl = ""
    · simp [h1]
    · by_cases h2 : splitPatterns pl = []
      · simp [h1, h2]
      · simp only [h1, h2, if_false, ne_eq, not_false_iff, true_and]
        exact inclLoop_eq_false_iff path (splitPatterns pl)

/-! ## Search-loop lemmas -/

/-- Each loop iteration either drops the neighbour or appends its
result, and it only appends when the similarity clears the
threshold. -/
theorem stepResults_cases (q : SearchQuery) (acc : List SearchResult) (nb : Neighbor) :
    stepResults q acc nb = acc ∨
      (stepResults q acc nb = acc ++ [toResult nb] ∧
        q.similarity_threshold ≤ similarityOf nb) := by
  unfold stepResults
  by_cases h1 : q.similarity_threshold ≤ similarityOf nb
  · rw [if_pos h1]
    by_cases h2 : q.exclusion_pattern ≠ "" ∧
        should_exclude_file nb.metadata.filePath q.exclusion_pattern = true
    · rw [if_pos h2]
      exact Or.inl rfl
    · rw [if_neg h2]
      by_cases h3 : q.inclusion_pattern ≠ "" ∧
          should_include_file nb.metadata.filePath q.inclusion_pattern = false
      · rw [if_pos h3]
        exact Or.inl rfl
      · rw [if_neg h3]
        exact Or.inr ⟨rfl, h1⟩
  · rw [if_neg h1]
    exact Or.inl rfl

/-- Unfolding lemma for one iteration of `searchLoop`. -/
theorem searchLoop_cons (q : SearchQuery) (nb : Neighbor) (rest : List Neighbor)
    (acc : List SearchResult) :
    searchLoop q (nb :: rest) acc =
      (if q.max_results ≤ (stepResults q acc nb).length then stepResults q acc nb
       else searchLoop q rest (stepResults q acc nb)) := by
  simp only [searchLoop]

/-- Structure of the filtering loop: it extends the accumulator with a
sublist of the per-neighbour results, in neighbour order, and every
appended result clears the similarity threshold. -/
theorem searchLoop_decompose (q : SearchQuery) (rest : List Neighbor)
    (acc : List SearchResult) :
    ∃ l, searchLoop q rest acc = acc ++ l ∧ l.Sublist (rest.map toResult) ∧
      ∀ r ∈ l, q.similarity_threshold ≤ r.score := by
  induction rest generalizing acc with
  | nil =>
    refine ⟨[], by simp [searchLoop], by simp, by simp⟩
  | cons nb rest ih =>
    rw [searchLoop_cons]
    rcases stepResults_cases q acc nb with h | ⟨h, hθ⟩ <;>
      by_cases hstop : q.max_results ≤ (stepResults q acc nb).length
    · rw [if_pos hstop, h]
      exact ⟨[], by simp, by simp, by simp⟩
    · rw [if_neg hstop, h]
      obtain ⟨l, heq, hsub, hsc⟩ := ih acc
      exact ⟨l, heq, hsub.trans (List.sublist_cons_self _ _), hsc⟩
    · rw [if_pos hstop, h]
      refine ⟨[toResult nb], rfl, ?_, ?_⟩
      · exact (List.nil_sublist _).cons₂ _
      · intro r hr
        rw [List.mem_singleton.mp hr]
        exact hθ
    · rw [if_neg hstop, h]
      obtain ⟨l, heq, hsub, hsc⟩ := ih (acc ++ [toResult nb])
      refine ⟨toResult nb :: l, by rw [heq]; simp, hsub.cons₂ _, ?_⟩
      intro r hr
      rcases List.mem_cons.mp hr with hr | hr
      · rw [hr]
        exact hθ
      · exact hsc r hr

/-! ## Claim theorems: search -/

/-- C2: every search call returns at most `max_results` results, and
every returned result's score is at least the call's
`similarity_threshold`. -/
theorem search_result_count_and_threshold (q : SearchQuery) (neighbors : List Neighbor) :
    (search_embeddings q neighbors).length ≤ q.max_results ∧
    ∀ r ∈ search_embeddings q neighbors, q.similarity_threshold ≤ r.score := by
  obtain ⟨l, heq, -, hsc⟩ := searchLoop_decompose q neighbors []
  constructor
  · exact List.length_take_le _ _
  · intro r hr
    have hl : r ∈ searchLoop q neighbors [] := List.mem_of_mem_take hr
    rw [heq, List.nil_append] at hl
    exact hsc r hl

/-- C5: when the vector store returns its neighbours in
ascending-distance order, the scores of the returned results are
non-increasing in list order. -/
theorem search_scores_monotone (q : SearchQuery) (neighbors : List Neighbor)
    (h : (neighbors.map Neighbor.distance).Pairwise (· ≤ ·)) :
    (search_embeddings q neighbors).Pairwise (fun a b => b.score ≤ a.score) := by
  obtain ⟨l, heq, hsub, -⟩ := searchLoop_decompose q neighbors []
  have hmap : (neighbors.map toResult).Pairwise (fun a b => b.score ≤ a.score) := by
    rw [List.pairwise_map] at h ⊢
    refine h.imp ?_
    intro a b hab
    show similarityOf b ≤ similarityOf a
    unfold similarityOf
    linarith
  have hl : l.Pairwise (fun a b => b.score ≤ a.score) := hmap.sublist hsub
  rw [search_embeddings, heq, List.nil_append]
  exact hl.sublist (List.take_sublist _ _)

/-- C5 witness: a concrete ascending-distance neighbour list. -/
theorem search_scores_monotone_witness :
    (nbsW.map Neighbor.distance).Pairwise (· ≤ ·) ∧
    (search_embeddings qW nbsW).Pairwise (fun a b => b.score ≤ a.score) := by
  have h : (nbsW.map Neighbor.distance).Pairwise (· ≤ ·) := by
    simp [nbsW, mA, mB, zero_le_two]
  exact ⟨h, search_scores_monotone qW nbsW h⟩

/-- C6: with a threshold in `[0,1]` and the pinned contract that
distances range over `[0,2]`, every returned result's score is
`1 - distance/2` for its source neighbour and lies in `[0,1]`. -/
theorem search_score_range (q : SearchQuery) (neighbors : List Neighbor)
    (hq : 0 ≤ q.similarity_threshold ∧ q.similarity_threshold ≤ 1)
    (hd : ∀ nb ∈ neighbors, 0 ≤ nb.distance ∧ nb.distance ≤ 2) :
    ∀ r ∈ search_embeddings q neighbors,
      (∃ nb ∈ neighbors, r.score = 1 - nb.distance / 2) ∧ 0 ≤ r.score ∧ r.score ≤ 1 := by
  obtain ⟨l, heq, hsub, -⟩ := searchLoop_decompose q neighbors []
  intro r hr
  have hl : r ∈ searchLoop q neighbors [] := List.mem_of_mem_take hr
  rw [heq, List.nil_append] at hl
  have hm : r ∈ neighbors.map toResult := hsub.subset hl
  obtain ⟨nb, hnb, hr2⟩ := List.mem_map.mp hm
  have hscore : r.score = 1 - nb.distance / 2 := by
    rw [← hr2]
    rfl
  obtain ⟨h0, h2⟩ := hd nb hnb
  refine ⟨⟨nb, hnb, hscore⟩, ?_, ?_⟩
  · rw [hscore]
    linarith
  · rw [hscore]
    linarith

/-- C6 witness: concrete neighbours with distances in `[0,2]` and a
threshold in `[0,1]`. -/
theorem search_score_range_witness :
    (0 ≤ qW.similarity_threshold ∧ qW.similarity_threshold ≤ 1) ∧
    (∀ nb ∈ nbsW, 0 ≤ nb.distance ∧ nb.distance ≤ 2) ∧
    ∀ r ∈ search_embeddings qW nbsW,
      (∃ nb ∈ nbsW, r.score = 1 - nb.distance / 2) ∧ 0 ≤ r.score ∧ r.score ≤ 1 := by
  have h1 : 0 ≤ qW.similarity_threshold ∧ qW.similarity_threshold ≤ 1 := by
    constructor <;> simp [qW, zero_le_one]
  have h2 : ∀ nb ∈ nbsW, 0 ≤ nb.distance ∧ nb.distance ≤ 2 := by
    simp [nbsW, mA, mB, zero_le_two]
  exact ⟨h1, h2, search_score_range qW nbsW h1 h2⟩

/-! ## Index-write lemmas -/

/-- `zip3` on empty first list. -/
theorem zip3_nil_left (bs : List (List Char)) (cs : List Metadata) :
    zip3 [] bs cs = [] := rfl

/-- `zip3` on empty second list. -/
theorem zip3_nil_mid (as : List String) (cs : List Metadata) :
    zip3 as [] cs = [] := by
  cases as <;> rfl

/-- `zip3` on empty third list. -/
theorem zip3_nil_right (as : List String) (bs : List (List Char)) :
    zip3 as bs [] = [] := by
  cases as <;> cases bs <;> rfl

/-- `zip3` on three cons cells. -/
theorem zip3_cons (a : String) (as : List String) (b : List Char) (bs : List (List Char))
    (c : Metadata) (cs : List Metadata) :
    zip3 (a :: as) (b :: bs) (c :: cs) = (a, b, c) :: zip3 as bs cs := rfl

/-- `zip3` never outgrows its middle list. -/
theorem zip3_length_le_mid :
    ∀ (as : List String) (bs : List (List Char)) (cs : List Metadata),
      (zip3 as bs cs).length ≤ bs.length := by
  intro as
  induction as with
  | nil => intro bs cs; simp [zip3_nil_left]
  | cons a as ih =>
    intro bs cs
    cases bs with
    | nil => simp [zip3_nil_mid]
    | cons b bs =>
      cases cs with
      | nil => simp [zip3_nil_right]
      | cons c cs =>
        rw [zip3_cons]
        simpa using ih bs cs

/-- Components of a `zip3` element belong to the zipped lists. -/
theorem mem_zip3 :
    ∀ (as : List String) (bs : List (List Char)) (cs : List Metadata)
      (t : String × List Char × Metadata), t ∈ zip3 as bs cs →
      t.1 ∈ as ∧ t.2.1 ∈ bs ∧ t.2.2 ∈ cs := by
  intro as
  induction as with
  | nil => intro bs cs t ht; rw [zip3_nil_left] at ht; cases ht
  | cons a as ih =>
    intro bs cs t ht
    cases bs with
    | nil => rw [zip3_nil_mid] at ht; cases ht
    | cons b bs =>
      cases cs with
      | nil => rw [zip3_nil_right] at ht; cases ht
      | cons c cs =>
        rw [zip3_cons] at ht
        rcases List.mem_cons.mp ht with ht | ht
        · rw [ht]
          exact ⟨List.mem_cons_self _ _, List.mem_cons_self _ _, List.mem_cons_self _ _⟩
        · obtain ⟨h1, h2, h3⟩ := ih bs cs t ht
          exact ⟨List.mem_cons_of_mem _ h1, List.mem_cons_of_mem _ h2,
            List.mem_cons_of_mem _ h3⟩

/-- `zip3` commutes with `drop` at a common index. -/
theorem zip3_drop :
    ∀ (k : Nat) (as : List String) (bs : List (List Char)) (cs : List Metadata),
      zip3 (as.drop k) (bs.drop k) (cs.drop k) = (zip3 as bs cs).drop k := by
  intro k
  induction k with
  | zero => intro as bs cs; simp
  | succ k ih =>
    intro as bs cs
    cases as with
    | nil => simp [zip3_nil_left]
    | cons a as =>
      cases bs with
      | nil => simp [zip3_nil_mid]
      | cons b bs =>
        cases cs with
        | nil => simp [zip3_nil_right]
        | cons c cs =>
          rw [zip3_cons, List.drop_succ_cons, List.drop_succ_cons, List.drop_succ_cons,
            List.drop_succ_cons]
          exact ih as bs cs

/-- `zip3` commutes with `take` at a common count. -/
theorem zip3_take :
    ∀ (k : Nat) (as : List String) (bs : List (List Char)) (cs : List Metadata),
      zip3 (as.take k) (bs.take k) (cs.take k) = (zip3 as bs cs).take k := by
  intro k
  induction k with
  | zero => intro as bs cs; simp [zip3_nil_left]
  | succ k ih =>
    intro as bs cs
    cases as with
    | nil => simp [zip3_nil_left]
    | cons a as =>
      cases bs with
      | nil => simp [zip3_nil_mid]
      | cons b bs =>
        cases cs with
        | nil => simp [zip3_nil_right]
        | cons c cs =>
          rw [zip3_cons, List.take_succ_cons, List.take_succ_cons, List.take_succ_cons,
            zip3_cons, List.take_succ_cons, ih as bs cs]

/-- `zip3` commutes with a common Python slice. -/
theorem pyslice_zip3 (s e : Nat) (as : List String) (bs : List (List Char))
    (cs : List Metadata) :
    zip3 (pyslice as s e) (pyslice bs s e) (pyslice cs s e) =
      pyslice (zip3 as bs cs) s e := by
  unfold pyslice
  rw [zip3_take, zip3_drop]

/-- Folding the per-document `delete` calls over the collection removes
exactly the documents whose `filePath` occurs in the path list. -/
theorem foldl_del_map :
    ∀ (ps : List String) (st : List IndexedDoc),
      ((ps.map Op.del).foldl applyOp st) =
        st.filter (fun d => decide (d.metadata.filePath ∉ ps)) := by
  intro ps
  induction ps with
  | nil => intro st; simp
  | cons p ps ih =>
    intro st
    rw [List.map_cons, List.foldl_cons]
    show ((ps.map Op.del).foldl applyOp (applyOp st (Op.del p))) = _
    rw [ih (applyOp st (Op.del p))]
    show (st.filter (fun d => decide (d.metadata.filePath ≠ p))).filter _ = _
    rw [List.filter_filter]
    have hpred : ∀ d : IndexedDoc,
        (decide (d.metadata.filePath ∉ ps) && decide (d.metadata.filePath ≠ p)) =
          decide (d.metadata.filePath ∉ p :: ps) := by
      intro d
      by_cases h1 : d.metadata.filePath = p <;>
        by_cases h2 : d.metadata.filePath ∈ ps <;> simp [h1, h2]
    simp only [hpred]

/-- Folding a list of `add` calls appends the flattened inserted
documents. -/
theorem foldl_adds (A : Nat → List String) (B : Nat → List (List Char))
    (C : Nat → List Metadata) :
    ∀ (is : List Nat) (st : List IndexedDoc),
      ((is.map (fun i => Op.add (A i) (B i) (C i))).foldl applyOp st) =
        st ++ is.flatMap (fun i => (zip3 (A i) (B i) (C i)).map mkDoc) := by
  intro is
  induction is with
  | nil => intro st; simp
  | cons i is ih =>
    intro st
    rw [List.map_cons, List.foldl_cons]
    show ((is.map _).foldl applyOp (st ++ (zip3 (A i) (B i) (C i)).map mkDoc)) = _
    rw [ih, List.flatMap_cons, List.append_assoc]

/-- Concatenating the first `k` Python slices of chunk size
`BATCH_SIZE` reproduces the first `k * BATCH_SIZE` elements. -/
theorem range_flatMap_chunks {α : Type} (l : List α) (n : Nat) (hl : l.length ≤ n) :
    ∀ k : Nat,
      (List.range k).flatMap
          (fun i => pyslice l (i * BATCH_SIZE) (min ((i + 1) * BATCH_SIZE) n)) =
        l.take (k * BATCH_SIZE) := by
  intro k
  induction k with
  | zero => simp
  | succ k ih =>
    rw [List.range_succ, List.flatMap_append, ih, List.flatMap_singleton]
    unfold pyslice
    by_cases hc : (k + 1) * BATCH_SIZE ≤ n
    · rw [min_eq_left hc]
      have harg : (k + 1) * BATCH_SIZE - k * BATCH_SIZE = BATCH_SIZE := by
        rw [Nat.succ_mul]
        omega
      rw [harg, Nat.succ_mul, List.take_add]
    · have hn : n ≤ (k + 1) * BATCH_SIZE := Nat.le_of_lt (Nat.lt_of_not_le hc)
      rw [min_eq_right hn]
      have h1 : (l.drop (k * BATCH_SIZE)).take (n - k * BATCH_SIZE) =
          l.drop (k * BATCH_SIZE) := by
        apply List.take_of_length_le
        rw [List.length_drop]
        omega
      have h2 : l.take ((k + 1) * BATCH_SIZE) = l := by
        apply List.take_of_length_le
        omega
      rw [h1, h2, List.take_append_drop]

/-- `math.ceil(n / BATCH_SIZE)` batches cover all `n` documents. -/
theorem le_numBatches_mul (n : Nat) : n ≤ numBatches n * BATCH_SIZE := by
  unfold numBatches BATCH_SIZE
  omega

/-- Decomposition of one `update_file_embeddings` call: the final state
is the starting state minus every document whose `filePath` occurs in
the batch, followed by the freshly inserted documents. -/
theorem update_eq (st : List IndexedDoc) (ids : List String) (input : List DocIn) :
    update_file_embeddings st ids input =
      st.filter (fun d => decide (d.metadata.filePath ∉ batchPaths input)) ++
        newDocs ids input := by
  unfold update_file_embeddings update_trace
  rw [List.foldl_append, foldl_del_map, foldl_adds]
  congr 1
  have hslice : ∀ i : Nat,
      (zip3 (pyslice ids (i * BATCH_SIZE) (min ((i + 1) * BATCH_SIZE) input.length))
          (pyslice (truncDocs input) (i * BATCH_SIZE) (min ((i + 1) * BATCH_SIZE) input.length))
          (pyslice (metadatas input) (i * BATCH_SIZE)
            (min ((i + 1) * BATCH_SIZE) input.length))).map mkDoc =
        (pyslice (zip3 ids (truncDocs input) (metadatas input)) (i * BATCH_SIZE)
          (min ((i + 1) * BATCH_SIZE) input.length)).map mkDoc := by
    intro i
    rw [pyslice_zip3]
  simp only [hslice]
  rw [← List.map_flatMap]
  have hZlen : (zip3 ids (truncDocs input) (metadatas input)).length ≤ input.length := by
    have h := zip3_length_le_mid ids (truncDocs input) (metadatas input)
    unfold truncDocs at h ⊢
    simpa using h
  rw [range_flatMap_chunks _ input.length hZlen]
  unfold newDocs
  congr 1
  apply List.take_of_length_le
  exact hZlen.trans (le_numBatches_mul input.length)

/-- Every inserted document carries one of the fresh ids and one of
the batch's metadata records. -/
theorem mem_newDocs {d : IndexedDoc} (ids : List String) (input : List DocIn)
    (h : d ∈ newDocs ids input) :
    d.id ∈ ids ∧ d.metadata ∈ input.map DocIn.metadata := by
  unfold newDocs at h
  obtain ⟨t, ht, rfl⟩ := List.mem_map.mp h
  obtain ⟨h1, -, h3⟩ := mem_zip3 _ _ _ t ht
  exact ⟨h1, by unfold metadatas at h3; exact h3⟩

/-- Every inserted document's `filePath` occurs among the batch's
paths. -/
theorem mem_newDocs_path {d : IndexedDoc} (ids : List String) (input : List DocIn)
    (h : d ∈ newDocs ids input) : d.metadata.filePath ∈ batchPaths input := by
  obtain ⟨-, hm⟩ := mem_newDocs ids input h
  obtain ⟨c, hc, hcm⟩ := List.mem_map.mp hm
  unfold batchPaths
  exact List.mem_map.mpr ⟨c, hc, by rw [hcm]⟩

/-- With one fresh id per document, stripping the ids from the
inserted documents recovers the batch's truncated documents and
metadatas, in order. -/
theorem newDocs_map_pair :
    ∀ (ids : List String) (input : List DocIn), ids.length = input.length →
      (newDocs ids input).map (fun d => (d.document, d.metadata)) =
        input.map (fun c => (c.document.take 1000, c.metadata)) := by
  intro ids
  induction ids with
  | nil =>
    intro input h
    have : input = [] := List.length_eq_zero.mp h.symm
    rw [this]
    rfl
  | cons i is ih =>
    intro input h
    cases input with
    | nil => cases h
    | cons c cs =>
      have hlen : is.length = cs.length := by
        simpa using h
      unfold newDocs truncDocs metadatas
      rw [List.map_cons, List.map_cons, zip3_cons, List.map_cons, List.map_cons]
      have htail := ih cs hlen
      unfold newDocs truncDocs metadatas at htail
      rw [List.map_cons, htail]
      rfl

/-- The `i`-th document of the batch is inserted with its metadata
unchanged and its text truncated to 1000 characters. -/
theorem newDocs_get :
    ∀ (ids : List String) (input : List DocIn), ids.length = input.length →
      ∀ (i : Nat) (hi : i < input.length),
        ∃ d ∈ newDocs ids input,
          d.metadata = (input.get ⟨i, hi⟩).metadata ∧
          d.document = (input.get ⟨i, hi⟩).document.take 1000 := by
  intro ids
  induction ids with
  | nil =>
    intro input h i hi
    have : input = [] := List.length_eq_zero.mp h.symm
    rw [this] at hi
    cases hi
  | cons id0 is ih =>
    intro input h i hi
    cases input with
    | nil => cases h
    | cons c cs =>
      have hlen : is.length = cs.length := by
        simpa using h
      have hcons : newDocs (id0 :: is) (c :: cs) =
          mkDoc (id0, c.document.take 1000, c.metadata) :: newDocs is cs := by
        unfold newDocs truncDocs metadatas
        rw [List.map_cons, List.map_cons, zip3_cons, List.map_cons]
      cases i with
      | zero =>
        refine ⟨mkDoc (id0, c.document.take 1000, c.metadata), ?_, rfl, rfl⟩
        rw [hcons]
        exact List.mem_cons_self _ _
      | succ j =>
        have hj : j < cs.length := by
          simpa using hi
        obtain ⟨d, hd, hm, hdoc⟩ := ih cs hlen j hj
        refine ⟨d, ?_, hm, hdoc⟩
        rw [hcons]
        exact List.mem_cons_of_mem _ hd

/-- Pushing the pair projection through a `filePath` filter on stored
documents. -/
theorem filter_pair_map (p : String) :
    ∀ l : List IndexedDoc,
      (l.filter (fun d => decide (d.metadata.filePath = p))).map
          (fun d => (d.document, d.metadata)) =
        (l.map (fun d => (d.document, d.metadata))).filter
          (fun x => decide (x.2.filePath = p)) := by
  intro l
  induction l with
  | nil => rfl
  | cons d l ih =>
    by_cases h : d.metadata.filePath = p <;>
      simp [List.filter_cons, h, ih]

/-- Pushing the truncation pair through a `filePath` filter on batch
documents. -/
theorem filter_pair_input (p : String) :
    ∀ l : List DocIn,
      (l.map (fun c => (c.document.take 1000, c.metadata))).filter
          (fun x => decide (x.2.filePath = p)) =
        (l.filter (fun c => decide (c.metadata.filePath = p))).map
          (fun c => (c.document.take 1000, c.metadata)) := by
  intro l
  induction l with
  | nil => rfl
  | cons c l ih =>
    by_cases h : c.metadata.filePath = p <;>
      simp [List.filter_cons, h, ih]

/-- The per-path observation of the inserted documents is the batch's
own documents for that path, truncated, in order. -/
theorem newDocs_filter_path (p : String) (ids : List String) (input : List DocIn)
    (hlen : ids.length = input.length) :
    ((newDocs ids input).filter (fun d => decide (d.metadata.filePath = p))).map
        (fun d => (d.document, d.metadata)) =
      (input.filter (fun c => decide (c.metadata.filePath = p))).map
        (fun c => (c.document.take 1000, c.metadata)) := by
  rw [filter_pair_map, newDocs_map_pair ids input hlen, filter_pair_input]

/-! ## Claim theorems: index writes -/

/-- C1: after a successful `update_file_embeddings(B)`, the documents
whose `filePath` is a path `p` of the batch are exactly the batch's
documents for `p` (with their text truncated, metadata unchanged, in
batch order), no pre-existing document for `p` survives, and the
trace issues every `delete` (each keyed by a batch path) before any
insert. -/
theorem update_replace_invariant (st : List IndexedDoc) (ids : List String)
    (input : List DocIn) (hlen : ids.length = input.length)
    (hfresh : ∀ d ∈ st, d.id ∉ ids) (p : String) (hp : p ∈ batchPaths input) :
    (((update_file_embeddings st ids input).filter
          (fun d => decide (d.metadata.filePath = p))).map
        (fun d => (d.document, d.metadata)) =
      (input.filter (fun c => decide (c.metadata.filePath = p))).map
        (fun c => (c.document.take 1000, c.metadata))) ∧
    (∀ d ∈ st, d.metadata.filePath = p → d ∉ update_file_embeddings st ids input) ∧
    (∃ adds, update_trace ids input = (batchPaths input).map Op.del ++ adds ∧
      ∀ op ∈ adds, ∀ s : String, op ≠ Op.del s) := by
  have hupd := update_eq st ids input
  refine ⟨?_, ?_, ?_⟩
  · rw [hupd, List.filter_append, List.map_append]
    have hleft : (st.filter (fun d => decide (d.metadata.filePath ∉ batchPaths input))).filter
        (fun d => decide (d.metadata.filePath = p)) = [] := by
      rw [List.filter_eq_nil_iff]
      intro d hd
      obtain ⟨-, hnot⟩ := List.mem_filter.mp hd
      simp only [decide_eq_true_eq] at hnot ⊢
      intro hdp
      exact hnot (hdp ▸ hp)
    rw [hleft, List.map_nil, List.nil_append]
    exact newDocs_filter_path p ids input hlen
  · intro d hd hdp hmem
    rw [hupd] at hmem
    rcases List.mem_append.mp hmem with hmem | hmem
    · obtain ⟨-, hnot⟩ := List.mem_filter.mp hmem
      simp only [decide_eq_true_eq] at hnot
      exact hnot (hdp ▸ hp)
    · exact hfresh d hd (mem_newDocs ids input hmem).1
  · refine ⟨(List.range (numBatches input.length)).map (fun i =>
      Op.add (pyslice ids (i * BATCH_SIZE) (min ((i + 1) * BATCH_SIZE) input.length))
        (pyslice (truncDocs input) (i * BATCH_SIZE) (min ((i + 1) * BATCH_SIZE) input.length))
        (pyslice (metadatas input) (i * BATCH_SIZE)
          (min ((i + 1) * BATCH_SIZE) input.length))), rfl, ?_⟩
    intro op hop s
    obtain ⟨i, -, rfl⟩ := List.mem_map.mp hop
    intro hcon
    cases hcon

/-- C1 witness: a one-document batch replacing a pre-existing document
for the same path. -/
theorem update_replace_invariant_witness :
    ((["n1"] : List String).length = inW.length ∧
      (∀ d ∈ stW, d.id ∉ (["n1"] : List String)) ∧ "a.py" ∈ batchPaths inW) ∧
    ((((update_file_embeddings stW ["n1"] inW).filter
          (fun d => decide (d.metadata.filePath = "a.py"))).map
        (fun d => (d.document, d.metadata)) =
      (inW.filter (fun c => decide (c.metadata.filePath = "a.py"))).map
        (fun c => (c.document.take 1000, c.metadata))) ∧
    (∀ d ∈ stW, d.metadata.filePath = "a.py" →
      d ∉ update_file_embeddings stW ["n1"] inW) ∧
    (∃ adds, update_trace ["n1"] inW = (batchPaths inW).map Op.del ++ adds ∧
      ∀ op ∈ adds, ∀ s : String, op ≠ Op.del s)) :=
  ⟨⟨by decide, by decide, by decide⟩,
    update_replace_invariant stW ["n1"] inW (by decide) (by decide) "a.py" (by decide)⟩

/-- C7: `update_file_embeddings` leaves every document whose
`filePath` is not among the batch's paths in the collection, and every
`delete` it issues is keyed by a `filePath` value taken from the
batch. -/
theorem update_preserves_other_paths (st : List IndexedDoc) (ids : List String)
    (input : List DocIn) (d : IndexedDoc) (hd : d ∈ st)
    (hp : d.metadata.filePath ∉ batchPaths input) :
    d ∈ update_file_embeddings st ids input ∧
    ∀ op ∈ update_trace ids input, ∀ s : String, op = Op.del s →
      s ∈ batchPaths input := by
  constructor
  · rw [update_eq]
    exact List.mem_append_left _
      (List.mem_filter.mpr ⟨hd, by simpa using hp⟩)
  · intro op hop s hdel
    unfold update_trace at hop
    rcases List.mem_append.mp hop with hop | hop
    · obtain ⟨p0, hp0, rfl⟩ := List.mem_map.mp hop
      cases hdel
      exact hp0
    · obtain ⟨i, -, rfl⟩ := List.mem_map.mp hop
      cases hdel

/-- C7 witness: a document under a path absent from the batch
survives the update. -/
theorem update_preserves_other_paths_witness :
    ((⟨"keep", ['k'], mB⟩ : IndexedDoc) ∈ stW ∧
      (⟨"keep", ['k'], mB⟩ : IndexedDoc).metadata.filePath ∉ batchPaths inW) ∧
    ((⟨"keep", ['k'], mB⟩ : IndexedDoc) ∈ update_file_embeddings stW ["n1"] inW ∧
      ∀ op ∈ update_trace ["n1"] inW, ∀ s : String, op = Op.del s →
        s ∈ batchPaths inW) :=
  ⟨⟨by decide, by decide⟩,
    update_preserves_other_paths stW ["n1"] inW ⟨"keep", ['k'], mB⟩ (by decide) (by decide)⟩

/-- C8: the chunked insert loop (slices of `BATCH_SIZE = 25`) produces
exactly the state of the spec's single atomic bulk insert of all `n`
`(id, truncated document, metadata)` triples. -/
theorem update_chunking_equals_bulk (st : List IndexedDoc) (ids : List String)
    (input : List DocIn) :
    update_file_embeddings st ids input = bulk_update_spec st ids input := by
  rw [update_eq]
  unfold bulk_update_spec
  rw [← List.foldl_map Op.del applyOp, foldl_del_map]
  rfl

/-- C9: resubmitting an identical batch (same file-path set) leaves
the per-path observable state — the `(document, metadata)` pairs
visible through search, for every path — unchanged: the second call
deletes exactly the first call's generation and reinserts the same
truncated documents and metadatas (under fresh ids). -/
theorem update_idempotent (st : List IndexedDoc) (ids1 ids2 : List String)
    (input : List DocIn) (h1 : ids1.length = input.length)
    (h2 : ids2.length = input.length) (p : String) :
    ((update_file_embeddings (update_file_embeddings st ids1 input) ids2 input).filter
        (fun d => decide (d.metadata.filePath = p))).map
      (fun d => (d.document, d.metadata)) =
    ((update_file_embeddings st ids1 input).filter
        (fun d => decide (d.metadata.filePath = p))).map
      (fun d => (d.document, d.metadata)) := by
  rw [update_eq (update_file_embeddings st ids1 input) ids2 input, update_eq st ids1 input]
  have hnew1 : (newDocs ids1 input).filter
      (fun d => decide (d.metadata.filePath ∉ batchPaths input)) = [] := by
    rw [List.filter_eq_nil_iff]
    intro d hd
    simp only [decide_eq_true_eq, not_not]
    exact mem_newDocs_path ids1 input hd
  have hX : ((st.filter (fun d => decide (d.metadata.filePath ∉ batchPaths input)) ++
      newDocs ids1 input).filter
        (fun d => decide (d.metadata.filePath ∉ batchPaths input))) =
      st.filter (fun d => decide (d.metadata.filePath ∉ batchPaths input)) := by
    rw [List.filter_append, hnew1, List.append_nil, List.filter_filter]
    simp only [Bool.and_self]
  rw [hX, List.filter_append, List.filter_append, List.map_append, List.map_append,
    newDocs_filter_path p ids2 input h2, newDocs_filter_path p ids1 input h1]

/-- C9 witness: submitting the same one-document batch twice. -/
theorem update_idempotent_witness :
    ((["n1"] : List String).length = inW.length ∧
      (["n2"] : List String).length = inW.length) ∧
    ((update_file_embeddings (update_file_embeddings stW ["n1"] inW) ["n2"] inW).filter
        (fun d => decide (d.metadata.filePath = "a.py"))).map
      (fun d => (d.document, d.metadata)) =
    ((update_file_embeddings stW ["n1"] inW).filter
        (fun d => decide (d.metadata.filePath = "a.py"))).map
      (fun d => (d.document, d.metadata)) :=
  ⟨⟨by decide, by decide⟩,
    update_idempotent stW ["n1"] ["n2"] inW (by decide) (by decide) "a.py"⟩

/-- C10: the text stored for the `i`-th submitted document is exactly
the first `min(length, 1000)` characters of its `document` string —
unchanged when it has at most 1000 characters, silently truncated to
the 1000-character prefix otherwise — with its metadata intact. -/
theorem update_document_truncation (st : List IndexedDoc) (ids : List String)
    (input : List DocIn) (hlen : ids.length = input.length) (i : Nat)
    (hi : i < input.length) :
    ∃ d ∈ update_file_embeddings st ids input,
      d.metadata = (input.get ⟨i, hi⟩).metadata ∧
      d.document = (input.get ⟨i, hi⟩).document.take 1000 ∧
      d.document.length = min (input.get ⟨i, hi⟩).document.length 1000 ∧
      ((input.get ⟨i, hi⟩).document.length ≤ 1000 →
        d.document = (input.get ⟨i, hi⟩).document) := by
  obtain ⟨d, hd, hm, hdoc⟩ := newDocs_get ids input hlen i hi
  refine ⟨d, ?_, hm, hdoc, ?_, ?_⟩
  · rw [update_eq]
    exact List.mem_append_right _ hd
  · rw [hdoc, List.length_take, Nat.min_comm]
  · intro hle
    rw [hdoc]
    exact List.take_of_length_le hle

/-- C10 witness: a short document is stored unchanged. -/
theorem update_document_truncation_witness :
    (["n1"] : List String).length = inW.length ∧
    ∃ d ∈ update_file_embeddings stW ["n1"] inW,
      d.metadata = (inW.get ⟨0, by decide⟩).metadata ∧
      d.document = (inW.get ⟨0, by decide⟩).document.take 1000 ∧
      d.document.length = min (inW.get ⟨0, by decide⟩).document.length 1000 ∧
      ((inW.get ⟨0, by decide⟩).document.length ≤ 1000 →
        d.document = (inW.get ⟨0, by decide⟩).document) :=
  ⟨by decide, update_document_truncation stW ["n1"] inW (by decide) 0 (by decide)⟩

end Needle
